import Mathlib

/-!
Verification of the note export / publish pipeline of `src/main.ts`
(an Obsidian plugin that exports notes to a Hugo repository, publishes
them to a remote endpoint, and renders a START page snapshot).

Note text is modelled as `List Char` (the `.data` of a JS string).
Each definition below is a direct shallow embedding of the TypeScript
it names; the source line numbers refer to `src/main.ts` (the canonical,
first variant in that file).
-/

namespace NotesSite

/-- The characters of a string literal, used to write `List Char` constants. -/
def chars (s : String) : List Char := s.data

/-- The single-quote character (U+0027), written via its code point. -/
def quoteChar : Char := Char.ofNat 39

/-- Whitespace recognised by `trim` (the ASCII subset of what JS
`String.prototype.trim` removes; the pipeline never builds wider whitespace). -/
def isWsChar (c : Char) : Bool :=
  c = ' ' || c = '\t' || c = '\n' || c = '\r' || c = '\x0b' || c = '\x0c'

/-- JS `s.trimStart()` on char lists. -/
def trimLeft (l : List Char) : List Char := l.dropWhile isWsChar

/-- JS `s.trimEnd()` on char lists. -/
def trimRight (l : List Char) : List Char := (l.reverse.dropWhile isWsChar).reverse

/-- JS `s.trim()` on char lists. -/
def trim (l : List Char) : List Char := trimLeft (trimRight l)

/-- JS `s.split("\n")` on char lists: the list of lines. -/
def splitNl : List Char → List (List Char)
  | [] => [[]]
  | c :: cs =>
    match splitNl cs with
    | [] => [[]]
    | r :: rs => if c = '\n' then [] :: r :: rs else (c :: r) :: rs

/-- JS `lines.join("\n")` on char lists, the inverse of `splitNl`. -/
def joinNl : List (List Char) → List Char
  | [] => []
  | [m] => m
  | m :: ms => m ++ '\n' :: joinNl ms

/-- JS `s.split(",")` on char lists. -/
def splitComma : List Char → List (List Char)
  | [] => [[]]
  | c :: cs =>
    match splitComma cs with
    | [] => [[]]
    | r :: rs => if c = ',' then [] :: r :: rs else (c :: r) :: rs

/-- Index of the first occurrence of `pat` as a contiguous sublist of `l`
(the position a JS regex/`indexOf` search would report), or `none`. -/
def findSubIdx (pat : List Char) : List Char → Option Nat
  | [] => if pat.isPrefixOf ([] : List Char) then some 0 else none
  | c :: cs =>
    if pat.isPrefixOf (c :: cs) then some 0
    else (findSubIdx pat cs).map (· + 1)

/-- The part of `l` strictly before the first occurrence of `pat`
(`none` when `pat` does not occur): the lazy-capture part of a regex
`(.*?)pat` match. -/
def upToSub (pat : List Char) : List Char → Option (List Char)
  | [] => if pat.isPrefixOf ([] : List Char) then some [] else none
  | c :: cs =>
    if pat.isPrefixOf (c :: cs) then some []
    else (upToSub pat cs).map (c :: ·)

/-- The part of `l` strictly after the first occurrence of `pat`
(`none` when `pat` does not occur). -/
def subAfter (pat : List Char) : List Char → Option (List Char)
  | [] => if pat.isPrefixOf ([] : List Char) then some [] else none
  | c :: cs =>
    if pat.isPrefixOf (c :: cs) then some ((c :: cs).drop pat.length)
    else subAfter pat cs

/-- Whether `pat` occurs as a contiguous sublist of `l`
(JS `String.prototype.includes`). -/
def hasSub (pat : List Char) : List Char → Bool
  | [] => pat.isPrefixOf ([] : List Char)
  | c :: cs => pat.isPrefixOf (c :: cs) || hasSub pat cs

/-- JS `s.replace(pat, repl)` with a plain-string pattern: replace the
first occurrence only (used for the `hugoAliases:` rename, main.ts:312). -/
def replaceFirstSub (pat repl : List Char) : List Char → List Char
  | [] => []
  | c :: cs =>
    if pat.isPrefixOf (c :: cs) then repl ++ (c :: cs).drop pat.length
    else c :: replaceFirstSub pat repl cs

/-! ## Frontmatter model (main.ts:785-819, `getFrontmatter`) -/

/-- A frontmatter value: a scalar string or a list of strings
(the JS object stores `string | string[]`). -/
inductive FmVal where
  | str : List Char → FmVal
  | list : List (List Char) → FmVal
deriving DecidableEq

/-- A parsed frontmatter object: a key → value map with unique keys,
modelled as an association list updated in place. -/
abbrev Fm : Type := List (List Char × FmVal)

instance : Nonempty Fm := ⟨[]⟩

/-- JS property read `fm[k]`. -/
def lookupKey : Fm → List Char → Option FmVal
  | [], _ => none
  | (k', v) :: t, k => if k' = k then some v else lookupKey t k

/-- JS property write `fm[k] = v` (overwrites an existing binding). -/
def setKey : Fm → List Char → FmVal → Fm
  | [], k, v => [(k, v)]
  | (k', v') :: t, k, v => if k' = k then (k, v) :: t else (k', v') :: setKey t k v

/-- JS truthiness of a frontmatter value: a string is truthy iff non-empty,
an array is always truthy. -/
def truthyVal : FmVal → Bool
  | .str s => !s.isEmpty
  | .list _ => true

/-- JS truthiness of `fm && fm[k]` for a possibly-null frontmatter. -/
def fmTruthy (fm? : Option Fm) (k : List Char) : Bool :=
  match fm? with
  | none => false
  | some fm =>
    match lookupKey fm k with
    | none => false
    | some v => truthyVal v

/-- The key of a frontmatter line: the part before the first `:`, trimmed
(main.ts:796-797, `line.split(":")` destructuring plus `key.trim()`). -/
def keyOf (line : List Char) : List Char :=
  trim (line.takeWhile (fun c => c ≠ ':'))

/-- The raw value of a frontmatter line: everything after the first `:`,
trimmed (main.ts:798, `valueParts.join(":").trim()`). -/
def valOf (line : List Char) : List Char :=
  trim ((line.dropWhile (fun c => c ≠ ':')).drop 1)

/-- Interpret a raw value: a `[`…`]`-wrapped value becomes a list split on
commas with each element trimmed, anything else stays a scalar
(main.ts:800-807). -/
def mkVal (v : List Char) : FmVal :=
  if (chars "[").isPrefixOf v && (chars "]").isSuffixOf v then
    .list ((splitComma ((v.drop 1).dropLast)).map trim)
  else .str v

/-- One iteration of the `for (const line of lines)` loop of `getFrontmatter`
(main.ts:794-816).  The state is the object built so far plus `currentKey`
(`[]` plays the role of the falsy initial `""`). -/
def fmStep (st : Fm × List Char) (line : List Char) : Fm × List Char :=
  let (fm, ck) := st
  if line.contains ':' then
    (setKey fm (keyOf line) (mkVal (valOf line)), keyOf line)
  else if (chars "-").isPrefixOf (trim line) && !ck.isEmpty then
    let item := trim ((trim line).drop 1)
    let newv :=
      match lookupKey fm ck with
      | some (.list xs) => FmVal.list (xs ++ [item])
      | _ => FmVal.list [item]
    (setKey fm ck newv, ck)
  else (fm, ck)

/-- Parse the lines of a frontmatter block body (main.ts:790-818). -/
def parseFmLines (lines : List (List Char)) : Fm :=
  (lines.foldl fmStep (([] : Fm), ([] : List Char))).1

/-- The lines of the frontmatter block body matched by the regex
`^---\n([\s\S]*?)\n---` (main.ts:786-788): the text must start with
`---\n`, and the body is everything up to the first later `\n---`. -/
def fmBody (text : List Char) : Option (List (List Char)) :=
  if (chars "---\n").isPrefixOf text then
    (findSubIdx (chars "\n---") (text.drop 4)).map
      (fun i => splitNl ((text.drop 4).take i))
  else none

/-- `getFrontmatter` (main.ts:785-819): `null` when the anchored
frontmatter regex does not match, otherwise the parsed block body. -/
def getFrontmatter (text : List Char) : Option Fm :=
  (fmBody text).map parseFmLines

/-! ## Metadata normalizer (main.ts:222-244 and 309-315)

The export command parses the frontmatter once (main.ts:222) and then
applies the date splice, the title splice, the `hugoAliases:` rename and
the aliases quote strip to the raw text, in that order. -/

/-- `content.replace(/^---\n/, "---\n" + line + "\n")`: splice a new line
right after the opening delimiter; a text not starting with `---\n` is
returned unchanged (the anchored regex does not match). -/
def injectAfterOpen (line : List Char) (content : List Char) : List Char :=
  if (chars "---\n").isPrefixOf content then
    chars "---\n" ++ line ++ '\n' :: content.drop 4
  else content

/-- Date injection (main.ts:225-232): when `!frontmatter || !frontmatter.date`,
splice `date: <today>` after the opening delimiter.  `fm?` is the
frontmatter parsed from the original content. -/
def dateStep (fm? : Option Fm) (today : List Char) (content : List Char) : List Char :=
  if fmTruthy fm? (chars "date") then content
  else injectAfterOpen (chars "date: " ++ today) content

/-- Title injection (main.ts:238-244): when `!frontmatter || !frontmatter.title`,
splice `title: <title>` after the opening delimiter. -/
def titleStep (fm? : Option Fm) (title : List Char) (content : List Char) : List Char :=
  if fmTruthy fm? (chars "title") then content
  else injectAfterOpen (chars "title: " ++ title) content

/-- Legacy key rename (main.ts:310-313): when `frontmatter && frontmatter.hugoAliases`,
replace the first occurrence of the substring `hugoAliases:` with `aliases:`. -/
def hugoStep (fm? : Option Fm) (content : List Char) : List Char :=
  if fmTruthy fm? (chars "hugoAliases") then
    replaceFirstSub (chars "hugoAliases:") (chars "aliases:") content
  else content

/-- Remove the first occurrence of the single-quote character, if any. -/
def dropQ : List Char → List Char
  | [] => []
  | c :: cs => if c = quoteChar then cs else c :: dropQ cs

/-- One line of `content.replace(/^(aliases:.*)'(.*)'/gm, "$1$2")`
(main.ts:315): on a line starting with `aliases:` that contains at least
two single quotes, the greedy groups match the last two quote characters
of the line and the replacement deletes exactly those two characters. -/
def stripAliasLine (l : List Char) : List Char :=
  if (chars "aliases:").isPrefixOf l && 2 ≤ l.count quoteChar then
    (dropQ (dropQ l.reverse)).reverse
  else l

/-- The whole multiline quote strip (main.ts:314-315). -/
def stripAliasQuotes (content : List Char) : List Char :=
  joinNl ((splitNl content).map stripAliasLine)

/-- The metadata normalizer of the export command: date injection, title
injection, `hugoAliases` rename and aliases quote strip, in source order,
all driven by the frontmatter parsed from the original content
(main.ts:222-244, 309-315; the image engine sits between the splices and
the alias fixups but touches neither condition). -/
def normalize (today title : List Char) (content : List Char) : List Char :=
  let fm? := getFrontmatter content
  stripAliasQuotes (hugoStep fm? (titleStep fm? title (dateStep fm? today content)))

/-! ## Image resolution engine (main.ts:246-305) -/

/-- The generated figure markup `{{<figure src="/NAME" caption="CAP">}}\n`
(main.ts:285; the pushed string itself ends in a newline). -/
def figLine (name caption : List Char) : List Char :=
  chars "\x7b\x7b<figure src=\"/" ++ name ++ chars "\" caption=\"" ++ caption
    ++ chars "\">\x7d\x7d" ++ ['\n']

/-- `line.match(/!\[\[(.*?)\]\])/`'s capture: the text between the first
`![[` of the line and the first `]]` after it, when both exist
(main.ts:253). -/
def matchEmbed (line : List Char) : Option (List Char) :=
  (subAfter (chars "![[") line).bind (upToSub (chars "]]"))

/-- Whether `line.match(/!\[\[.*?\]\]/)` is non-null (main.ts:277). -/
def hasEmbed (line : List Char) : Bool :=
  (matchEmbed line).isSome

/-- The `while (i < lines.length)` loop of the export command
(main.ts:251-303) on the line list.  `ok name` abstracts the two
side-effecting collaborators: it is `true` when the embed resolves to a
vault file and its copy step completes (skip or success), and `false`
when the file is not found (main.ts:296-298) or the copy throws
(main.ts:288-294); in both failure cases the original line is kept and
no caption is consumed. -/
def processLines (ok : List Char → Bool) : List (List Char) → List (List Char)
  | [] => []
  | l :: rest =>
    match matchEmbed l with
    | none => l :: processLines ok rest
    | some name =>
      if ok name then
        match rest with
        | [] => [figLine name []]
        | l1 :: rest2 =>
          if !(trim l1).isEmpty && !hasEmbed l1 then
            if rest2.isEmpty || (trim (rest2.headD [])).isEmpty then
              figLine name (trim l1) :: processLines ok rest2
            else
              figLine name [] :: processLines ok (l1 :: rest2)
          else figLine name [] :: processLines ok (l1 :: rest2)
      else l :: processLines ok rest

/-- The image engine on a whole text: split, process, re-join
(main.ts:247, 305). -/
def processImages (ok : List Char → Bool) (content : List Char) : List Char :=
  joinNl (processLines ok (splitNl content))

/-! ## Image dedup (main.ts:821-834 and 264-272) -/

/-- `fileExistsWithSameSize` (main.ts:821-834): stat both paths; return
whether the byte sizes are equal; any stat failure (modelled as `none`)
lands in the catch and yields `false`. -/
def fileExistsWithSameSize (stat : List Char → Option Nat) (sourcePath destPath : List Char) : Bool :=
  match stat sourcePath, stat destPath with
  | some a, some b => a == b
  | _, _ => false

/-- The dedup-guarded copy (main.ts:264-272): skip when
`fileExistsWithSameSize` holds, otherwise `fs.copyFile` runs and the
destination afterwards stats like the source.  Returns whether a copy
call occurred, and the file system after the step. -/
def copyStep (stat : List Char → Option Nat) (sourcePath destPath : List Char) :
    Bool × (List Char → Option Nat) :=
  if fileExistsWithSameSize stat sourcePath destPath then (false, stat)
  else (true, fun p => if p = destPath then stat sourcePath else stat p)

/-! ## Daily-note filter (main.ts:212-217 and 345-350) -/

/-- Whether a string fully matches `/^\d{4}-\d{2}-\d{2}$/`. -/
def isDateShape : List Char → Bool
  | [a, b, c, d, e, f, g, h, i, j] =>
    a.isDigit && b.isDigit && c.isDigit && d.isDigit && e = '-' &&
    f.isDigit && g.isDigit && h = '-' && i.isDigit && j.isDigit
  | _ => false

/-- The daily-note check used verbatim by both the export command
(main.ts:213-217) and the publish command (main.ts:346-350):
`filename.split(".")[0]` (the part before the first dot) matched
against the strict date pattern; a match means the note is skipped. -/
def isDailyFilename (filename : List Char) : Bool :=
  isDateShape (filename.takeWhile (fun c => c ≠ '.'))

/-! ## Publish tag gate (main.ts:355-365) -/

/-- JS `frontmatter.tags.includes("#publish")`: element membership for an
array value, substring containment for a string value. -/
def valIncludes (v : FmVal) (tok : List Char) : Bool :=
  match v with
  | .str s => hasSub tok s
  | .list xs => xs.contains tok

/-- The tag gate of the publish command (main.ts:356-365): proceed unless
`!frontmatter || !frontmatter.tags || !frontmatter.tags.includes("#publish")`. -/
def publishTagGate (fm? : Option Fm) : Bool :=
  match fm? with
  | none => false
  | some fm =>
    match lookupKey fm (chars "tags") with
    | none => false
    | some v => truthyVal v && valIncludes v (chars "#publish")

/-! ## Snapshot link rewrite (main.ts:414-420) -/

/-- The characters `encodeURIComponent` leaves unencoded. -/
def uriUnreserved (c : Char) : Bool :=
  c.isAlpha || c.isDigit || c = '-' || c = '_' || c = '.' || c = '!' ||
  c = '~' || c = '*' || c = quoteChar || c = '(' || c = ')'

/-- An uppercase hexadecimal digit. -/
def hexDig (n : Nat) : Char :=
  if n < 10 then Char.ofNat (48 + n) else Char.ofNat (55 + n)

/-- The UTF-8 bytes of a code point. -/
def utf8Bytes (n : Nat) : List Nat :=
  if n < 128 then [n]
  else if n < 2048 then [192 + n / 64, 128 + n % 64]
  else if n < 65536 then [224 + n / 4096, 128 + (n / 64) % 64, 128 + n % 64]
  else [240 + n / 262144, 128 + (n / 4096) % 64, 128 + (n / 64) % 64, 128 + n % 64]

/-- JS `encodeURIComponent` (main.ts:417): unreserved characters pass
through, every other character is percent-encoded per UTF-8 byte with
uppercase hex. -/
def encodeURIComponent (l : List Char) : List Char :=
  l.flatMap (fun c =>
    if uriUnreserved c then [c]
    else (utf8Bytes c.toNat).flatMap (fun b => ['%', hexDig (b / 16), hexDig (b % 16)]))

/-- The fixed middle part of the generated markdown link
(main.ts:418, vault name `jonbo-notes-site-sync`). -/
def obsidianMid : List Char :=
  chars "](obsidian://open?vault=jonbo-notes-site-sync&file="

/-- `content.replace(/\[\[(.*?)\]\]/g, ...)` (main.ts:414-420): every
occurrence of `[[text]]` (lazy capture to the first following `]]`)
becomes `[text](obsidian://open?vault=jonbo-notes-site-sync&file=ENC)`,
scanning left to right and resuming after the replacement. -/
def rewriteLinks (enc : List Char → List Char) (l : List Char) : List Char :=
  match l with
  | [] => []
  | c :: cs =>
    if (chars "[[").isPrefixOf (c :: cs) then
      match upToSub (chars "]]") ((c :: cs).drop 2) with
      | some inner =>
        '[' :: inner ++ obsidianMid ++ enc inner ++ ')' ::
          rewriteLinks enc ((c :: cs).drop (4 + inner.length))
      | none => c :: rewriteLinks enc cs
    else c :: rewriteLinks enc cs
termination_by l.length
decreasing_by
  · simp only [List.length_drop, List.length_cons]
    omega
  · simp [List.length_cons]
  · simp [List.length_cons]

/-! ## Definitions written from the claims' words (refinement side)

These two definitions follow the wording of the specification claims, not
the source; they exist to be compared with the source-derived behaviour. -/

/-- Modelled from the spec claim C7's words: "the filename with its
extension stripped" — everything before the last dot (the whole name when
there is no dot). -/
def specStripExt (filename : List Char) : List Char :=
  if filename.contains '.' then
    ((filename.reverse.dropWhile (fun c => c ≠ '.')).drop 1).reverse
  else filename

/-- Modelled from the spec claim C8's words: the text "starts with a line
containing only `---`, a block body, and a closing `---` line". -/
def specLeadingShape (text : List Char) : Bool :=
  match splitNl text with
  | [] => false
  | l0 :: rest => l0 == chars "---" && rest.any (fun m => m == chars "---")

/-- Reference reformulation of the closing-delimiter search, used only in
proofs: the block-body lines are the lines before the first line that
starts with `---`, and the search fails when no such line exists. -/
def takeToClose : List (List Char) → Option (List (List Char))
  | [] => none
  | m :: ms =>
    if (chars "---").isPrefixOf m then some []
    else (takeToClose ms).map (m :: ·)

/-! ## Helper lemmas about the line primitives -/

theorem splitNl_ne_nil (l : List Char) : splitNl l ≠ [] := by
  cases l with
  | nil => simp [splitNl]
  | cons c cs =>
    simp only [splitNl]
    cases splitNl cs with
    | nil => simp
    | cons r rs => by_cases hc : c = '\n' <;> simp [hc]

theorem splitNl_shape (l : List Char) : ∃ r rs, splitNl l = r :: rs := by
  cases h : splitNl l with
  | nil => exact absurd h (splitNl_ne_nil l)
  | cons r rs => exact ⟨r, rs, rfl⟩

theorem joinNl_splitNl (l : List Char) : joinNl (splitNl l) = l := by
  induction l with
  | nil => simp [splitNl, joinNl]
  | cons c cs ih =>
    obtain ⟨r, rs, h⟩ := splitNl_shape cs
    rw [h] at ih
    simp only [splitNl, h]
    by_cases hc : c = '\n'
    · subst hc
      simpa [joinNl] using ih
    · simp only [if_neg hc]
      cases rs with
      | nil => simpa [joinNl] using ih
      | cons r' rs' => simpa [joinNl] using ih

theorem nlfree_of_mem_splitNl {l : List Char} {m : List Char}
    (hm : m ∈ splitNl l) : '\n' ∉ m := by
  induction l generalizing m with
  | nil =>
    simp [splitNl] at hm
    simp [hm]
  | cons c cs ih =>
    obtain ⟨r, rs, h⟩ := splitNl_shape cs
    simp only [splitNl, h] at hm
    have hr : '\n' ∉ r := ih (by rw [h]; exact List.mem_cons_self r rs)
    by_cases hc : c = '\n'
    · rw [if_pos hc] at hm
      rcases List.mem_cons.mp hm with rfl | hm'
      · simp
      · exact ih (by rw [h]; exact hm')
    · rw [if_neg hc] at hm
      rcases List.mem_cons.mp hm with rfl | hm'
      · intro hmem
        rcases List.mem_cons.mp hmem with e | hmem'
        · exact hc e.symm
        · exact hr hmem'
      · exact ih (by rw [h]; exact List.mem_cons_of_mem r hm')

theorem splitNl_of_nlfree {l : List Char} (h : '\n' ∉ l) : splitNl l = [l] := by
  induction l with
  | nil => simp [splitNl]
  | cons c cs ih =>
    simp only [List.mem_cons, not_or] at h
    have hcne : ¬ c = '\n' := fun e => h.1 e.symm
    simp [splitNl, ih h.2, hcne]

theorem splitNl_append_cons {a : List Char} (b : List Char) (h : '\n' ∉ a) :
    splitNl (a ++ '\n' :: b) = a :: splitNl b := by
  induction a with
  | nil =>
    obtain ⟨r, rs, hb⟩ := splitNl_shape b
    simp [splitNl, hb]
  | cons c cs ih =>
    simp only [List.mem_cons, not_or] at h
    have hcne : ¬ c = '\n' := fun e => h.1 e.symm
    simp [splitNl, ih h.2, hcne]

theorem isPrefixOf_append_nl {pat : List Char} (m z : List Char) (hp : '\n' ∉ pat) :
    pat.isPrefixOf (m ++ '\n' :: z) = pat.isPrefixOf m := by
  induction pat generalizing m with
  | nil => simp [List.isPrefixOf]
  | cons p ps ih =>
    cases m with
    | nil =>
      simp only [List.mem_cons, not_or] at hp
      have : ¬ (p == '\n') = true := by
        simp only [beq_iff_eq]
        exact fun e => hp.1 e.symm
      simp [List.isPrefixOf, this]
    | cons q m' =>
      simp only [List.mem_cons, not_or] at hp
      simp [List.isPrefixOf, ih m' hp.2]

theorem findSubIdx_nlfree_none {p l : List Char} (h : '\n' ∉ l) :
    findSubIdx ('\n' :: p) l = none := by
  induction l with
  | nil => simp [findSubIdx, List.isPrefixOf]
  | cons c cs ih =>
    simp only [List.mem_cons, not_or] at h
    have : ¬ (('\n' :: p).isPrefixOf (c :: cs)) = true := by
      simp only [List.isPrefixOf, Bool.and_eq_true, beq_iff_eq]
      exact fun e => h.1 e.1
    simp [findSubIdx, this, ih h.2]

theorem optIsSome_map {α β : Type} (f : α → β) (x : Option α) :
    (x.map f).isSome = x.isSome := by
  cases x <;> rfl

theorem findSubIdx_cons (pat : List Char) (c : Char) (cs : List Char) :
    findSubIdx pat (c :: cs) =
      if pat.isPrefixOf (c :: cs) = true then some 0
      else (findSubIdx pat cs).map (· + 1) := rfl

theorem findSubIdx_append_nlfree {p a : List Char} (b : List Char) (h : '\n' ∉ a) :
    findSubIdx ('\n' :: p) (a ++ b) = (findSubIdx ('\n' :: p) b).map (· + a.length) := by
  induction a with
  | nil =>
    cases hb : findSubIdx ('\n' :: p) b <;> simp [hb]
  | cons c cs ih =>
    simp only [List.mem_cons, not_or] at h
    have hbeq : ('\n' == c) = false := beq_eq_false_iff_ne.mpr h.1
    have hnp : (('\n' :: p).isPrefixOf (c :: (cs ++ b))) = false := by
      simp [List.isPrefixOf, hbeq]
    rw [List.cons_append, findSubIdx_cons, ih h.2]
    simp only [hnp, Bool.false_eq_true, if_false]
    cases findSubIdx ('\n' :: p) b with
    | none => simp
    | some v => simp [Nat.add_assoc]

theorem takeToClose_isSome_iff (ls : List (List Char)) :
    (takeToClose ls).isSome = true ↔ ∃ m ∈ ls, (chars "---").isPrefixOf m = true := by
  induction ls with
  | nil => simp [takeToClose]
  | cons m ms ih =>
    by_cases hm : (chars "---").isPrefixOf m = true
    · simp only [takeToClose, if_pos hm, Option.isSome_some, true_iff]
      exact ⟨m, List.mem_cons_self m ms, hm⟩
    · rw [takeToClose, if_neg hm, optIsSome_map, ih]
      constructor
      · rintro ⟨x, hx, hpx⟩
        exact ⟨x, List.mem_cons_of_mem m hx, hpx⟩
      · rintro ⟨x, hx, hpx⟩
        rcases List.mem_cons.mp hx with rfl | hx'
        · exact absurd hpx hm
        · exact ⟨x, hx', hpx⟩

theorem findSub_joinNl (ls : List (List Char)) (l1 : List Char)
    (h1 : '\n' ∉ l1) (hls : ∀ m ∈ ls, '\n' ∉ m) :
    (findSubIdx (chars "\n---") (joinNl (l1 :: ls))).map
        (fun i => splitNl ((joinNl (l1 :: ls)).take i))
      = (takeToClose ls).map (fun bs => l1 :: bs) := by
  have hpat : chars "\n---" = '\n' :: chars "---" := rfl
  induction ls generalizing l1 with
  | nil =>
    rw [hpat]
    simp [joinNl, findSubIdx_nlfree_none h1, takeToClose]
  | cons m ms ih =>
    have hJ : joinNl (l1 :: m :: ms) = l1 ++ '\n' :: joinNl (m :: ms) := by
      simp [joinNl]
    have hm : '\n' ∉ m := hls m (List.mem_cons_self m ms)
    have hms : ∀ x ∈ ms, '\n' ∉ x := fun x hx => hls x (List.mem_cons_of_mem m hx)
    have hpm : (chars "---").isPrefixOf (joinNl (m :: ms)) = (chars "---").isPrefixOf m := by
      cases ms with
      | nil => simp [joinNl]
      | cons m' ms' =>
        have : joinNl (m :: m' :: ms') = m ++ '\n' :: joinNl (m' :: ms') := by simp [joinNl]
        rw [this, isPrefixOf_append_nl]
        simp [chars]
    rw [hpat, hJ, findSubIdx_append_nlfree _ h1]
    have hpre2 : (('\n' :: chars "---").isPrefixOf ('\n' :: joinNl (m :: ms))) =
        (chars "---").isPrefixOf m := by
      simp only [List.isPrefixOf, beq_self_eq_true, Bool.true_and]
      exact hpm
    have hstep : findSubIdx ('\n' :: chars "---") ('\n' :: joinNl (m :: ms)) =
        if (chars "---").isPrefixOf m = true then some 0
        else (findSubIdx ('\n' :: chars "---") (joinNl (m :: ms))).map (· + 1) := by
      by_cases hc : (chars "---").isPrefixOf m = true
      · rw [if_pos hc, findSubIdx, if_pos (hpre2.trans hc)]
      · rw [if_neg hc, findSubIdx, if_neg (by rw [hpre2]; exact hc)]
    rw [hstep]
    by_cases hc : (chars "---").isPrefixOf m = true
    · rw [if_pos hc]
      simp only [Option.map_some', Nat.zero_add]
      have htake : (l1 ++ '\n' :: joinNl (m :: ms)).take l1.length = l1 :=
        List.take_left l1 ('\n' :: joinNl (m :: ms))
      rw [htake, splitNl_of_nlfree h1]
      simp [takeToClose, hc]
    · rw [if_neg hc]
      have hih := ih m hm hms
      rw [hpat] at hih
      simp only [takeToClose, if_neg hc]
      cases hfs : findSubIdx ('\n' :: chars "---") (joinNl (m :: ms)) with
      | none =>
        rw [hfs] at hih
        simp only [Option.map_none'] at hih
        have : takeToClose ms = none := by
          cases htc : takeToClose ms with
          | none => rfl
          | some bs => rw [htc] at hih; simp at hih
        simp [this]
      | some i =>
        rw [hfs] at hih
        simp only [Option.map_some'] at hih
        have hbs : ∃ bs, takeToClose ms = some bs ∧
            splitNl ((joinNl (m :: ms)).take i) = m :: bs := by
          cases htc : takeToClose ms with
          | none => rw [htc] at hih; simp at hih
          | some bs =>
            rw [htc] at hih
            simp only [Option.map_some', Option.some.injEq] at hih
            exact ⟨bs, rfl, hih⟩
        obtain ⟨bs, htc, hsp⟩ := hbs
        rw [htc]
        simp only [Option.map_some', Option.some.injEq]
        have harith : i + 1 + l1.length = l1.length + (i + 1) := by omega
        have htake : (l1 ++ '\n' :: joinNl (m :: ms)).take (i + 1 + l1.length) =
            l1 ++ '\n' :: (joinNl (m :: ms)).take i := by
          rw [harith, List.take_append]
          rfl
        rw [htake, splitNl_append_cons _ h1, hsp]

theorem eq_dashes_of_open {l0 : List Char} (z : List Char) (h0 : '\n' ∉ l0)
    (hp : (chars "---\n").isPrefixOf (l0 ++ '\n' :: z) = true) : l0 = chars "---" := by
  have hch : chars "---\n" = ['-', '-', '-', '\n'] := rfl
  have hch3 : chars "---" = ['-', '-', '-'] := rfl
  rw [hch] at hp
  rw [hch3]
  rcases l0 with _ | ⟨a, _ | ⟨b, _ | ⟨c, _ | ⟨d, rest⟩⟩⟩⟩
  · simp only [List.nil_append, List.isPrefixOf, Bool.and_eq_true, beq_iff_eq] at hp
    exact absurd hp.1 (by decide)
  · simp only [List.cons_append, List.nil_append, List.isPrefixOf, Bool.and_eq_true,
      beq_iff_eq] at hp
    exact absurd hp.2.1 (by decide)
  · simp only [List.cons_append, List.nil_append, List.isPrefixOf, Bool.and_eq_true,
      beq_iff_eq] at hp
    exact absurd hp.2.2.1 (by decide)
  · simp only [List.cons_append, List.nil_append, List.isPrefixOf, Bool.and_eq_true,
      beq_iff_eq] at hp
    rw [← hp.1, ← hp.2.1, ← hp.2.2.1]
  · simp only [List.cons_append, List.isPrefixOf, Bool.and_eq_true, beq_iff_eq] at hp
    have hd : ('\n' : Char) = d := hp.2.2.2.1
    exact absurd (by rw [hd]; simp : '\n' ∈ a :: b :: c :: d :: rest) h0

theorem fmBody_of_lines {t l1 : List Char} {ls : List (List Char)}
    (h : splitNl t = chars "---" :: l1 :: ls) :
    fmBody t = (takeToClose ls).map (fun bs => l1 :: bs) := by
  have ht : t = joinNl (chars "---" :: l1 :: ls) := by rw [← h, joinNl_splitNl]
  have hJ : t = chars "---" ++ '\n' :: joinNl (l1 :: ls) := by
    rw [ht]; simp [joinNl, chars]
  have hpre : (chars "---\n").isPrefixOf t = true := by
    rw [hJ]
    simp [chars, List.isPrefixOf]
  have hdrop : t.drop 4 = joinNl (l1 :: ls) := by
    rw [hJ]; rfl
  have h1 : '\n' ∉ l1 :=
    nlfree_of_mem_splitNl (by rw [h]; exact List.mem_cons_of_mem _ (List.mem_cons_self l1 ls))
  have hls : ∀ m ∈ ls, '\n' ∉ m := fun m hm =>
    nlfree_of_mem_splitNl (by
      rw [h]
      exact List.mem_cons_of_mem _ (List.mem_cons_of_mem _ hm))
  rw [fmBody, if_pos hpre, hdrop]
  exact findSub_joinNl ls l1 h1 hls

theorem fmBody_single {t l0 : List Char} (h : splitNl t = [l0]) : fmBody t = none := by
  have ht : t = l0 := by
    have := joinNl_splitNl t
    rw [h] at this
    simpa [joinNl] using this.symm
  have h0 : '\n' ∉ t := ht ▸ nlfree_of_mem_splitNl (by rw [h]; exact List.mem_singleton_self l0)
  have hpre : ¬ (chars "---\n").isPrefixOf t = true := by
    intro hp
    rw [List.isPrefixOf_iff_prefix] at hp
    exact h0 (hp.subset (by simp [chars]))
  simp [fmBody, hpre]

theorem fmBody_not_dashes {t l0 l1 : List Char} {ls : List (List Char)}
    (h : splitNl t = l0 :: l1 :: ls) (h0 : l0 ≠ chars "---") : fmBody t = none := by
  have ht : t = joinNl (l0 :: l1 :: ls) := by rw [← h, joinNl_splitNl]
  have hJ : t = l0 ++ '\n' :: joinNl (l1 :: ls) := by
    rw [ht]; simp [joinNl]
  have hnl : '\n' ∉ l0 :=
    nlfree_of_mem_splitNl (by rw [h]; exact List.mem_cons_self _ _)
  have hpre : ¬ (chars "---\n").isPrefixOf t = true := by
    intro hp
    rw [hJ] at hp
    exact h0 (eq_dashes_of_open _ hnl hp)
  simp [fmBody, hpre]

theorem splitNl_joinNl {ls : List (List Char)} (hne : ls ≠ [])
    (h : ∀ m ∈ ls, '\n' ∉ m) : splitNl (joinNl ls) = ls := by
  induction ls with
  | nil => exact absurd rfl hne
  | cons m ms ih =>
    cases ms with
    | nil =>
      show splitNl (joinNl [m]) = [m]
      rw [joinNl]
      exact splitNl_of_nlfree (h m (List.mem_cons_self m []))
    | cons m' ms' =>
      have hj : joinNl (m :: m' :: ms') = m ++ '\n' :: joinNl (m' :: ms') := by simp [joinNl]
      rw [hj, splitNl_append_cons _ (h m (List.mem_cons_self _ _)),
        ih (by simp) (fun x hx => h x (List.mem_cons_of_mem m hx))]

theorem dropWhile_eq_self_of_all {p : Char → Bool} {l : List Char}
    (h : ∀ c ∈ l, p c = false) : l.dropWhile p = l := by
  cases l with
  | nil => rfl
  | cons c cs =>
    rw [List.dropWhile_cons, h c (List.mem_cons_self c cs)]
    simp

theorem trim_of_wsfree {l : List Char} (h : ∀ c ∈ l, isWsChar c = false) : trim l = l := by
  have h1 : trimRight l = l := by
    rw [trimRight, dropWhile_eq_self_of_all (fun c hc => h c (List.mem_reverse.mp hc))]
    exact List.reverse_reverse l
  rw [trim, h1, trimLeft, dropWhile_eq_self_of_all h]

theorem trim_space_cons {t : List Char} (hne : t ≠ [])
    (h : ∀ c ∈ t, isWsChar c = false) : trim (' ' :: t) = t := by
  have hR : trimRight (' ' :: t) = ' ' :: t := by
    rw [trimRight]
    obtain ⟨c, rest, hc⟩ := List.exists_cons_of_ne_nil (l := t.reverse) (by simpa using hne)
    have hrev : (' ' :: t).reverse = c :: (rest ++ [' ']) := by
      rw [List.reverse_cons, hc]
      simp
    have hcf : isWsChar c = false :=
      h c (by rw [← List.mem_reverse, hc]; exact List.mem_cons_self c rest)
    rw [hrev, List.dropWhile_cons, hcf]
    simp only [Bool.false_eq_true, if_false]
    rw [← hrev]
    exact List.reverse_reverse _
  rw [trim, hR, trimLeft, List.dropWhile_cons]
  have : isWsChar ' ' = true := by decide
  rw [this]
  simp only [if_true]
  exact dropWhile_eq_self_of_all h

theorem digit_not_ws {c : Char} (hd : c.isDigit = true) : isWsChar c = false := by
  by_contra hws
  rw [Bool.not_eq_false, isWsChar] at hws
  simp only [Bool.or_eq_true, decide_eq_true_eq] at hws
  rcases hws with ((((h | h) | h) | h) | h) | h <;>
    (subst h; exact absurd hd (by decide))

/-! ## Lemmas about the frontmatter parse state -/

theorem fmStep_eq (fm : Fm) (ck : List Char) (line : List Char) :
    fmStep (fm, ck) line =
      if line.contains ':' = true then
        (setKey fm (keyOf line) (mkVal (valOf line)), keyOf line)
      else if ((chars "-").isPrefixOf (trim line) && !ck.isEmpty) = true then
        (setKey fm ck
          (match lookupKey fm ck with
            | some (.list xs) => FmVal.list (xs ++ [trim ((trim line).drop 1)])
            | _ => FmVal.list [trim ((trim line).drop 1)]), ck)
      else (fm, ck) := rfl

theorem lookupKey_setKey (fm : Fm) (k k' : List Char) (v : FmVal) :
    lookupKey (setKey fm k v) k' = if k = k' then some v else lookupKey fm k' := by
  induction fm with
  | nil => simp [setKey, lookupKey]
  | cons p t ih =>
    obtain ⟨a, b⟩ := p
    by_cases hak : a = k
    · subst hak
      simp only [setKey, if_pos rfl, lookupKey]
      by_cases h2 : a = k' <;> simp [h2]
    · simp only [setKey, if_neg hak, lookupKey, ih]
      by_cases h2 : a = k'
      · have h3 : ¬ k = k' := fun e => hak (h2.trans e.symm)
        simp [h2, h3]
      · by_cases h3 : k = k' <;> simp [h2, h3]

theorem isSome_lookup_setKey {fm : Fm} {k : List Char} (k2 : List Char) (v : FmVal)
    (h : (lookupKey fm k).isSome = true) :
    (lookupKey (setKey fm k2 v) k).isSome = true := by
  rw [lookupKey_setKey]
  by_cases h2 : k2 = k <;> simp [h2, h]

theorem foldl_fmStep_presence (lines : List (List Char)) (fm : Fm) (ck k : List Char)
    (h : (lookupKey fm k).isSome = true) :
    (lookupKey ((lines.foldl fmStep (fm, ck)).1) k).isSome = true := by
  induction lines generalizing fm ck with
  | nil => exact h
  | cons l0 ls ih =>
    rw [List.foldl_cons, fmStep_eq]
    by_cases hc : l0.contains ':' = true
    · rw [if_pos hc]
      exact ih _ _ (isSome_lookup_setKey _ _ h)
    · rw [if_neg hc]
      by_cases hd : ((chars "-").isPrefixOf (trim l0) && !ck.isEmpty) = true
      · rw [if_pos hd]
        exact ih _ _ (isSome_lookup_setKey _ _ h)
      · rw [if_neg hd]
        exact ih _ _ h

theorem colkey_ne_of_lookup_none (lines : List (List Char)) (fm : Fm) (ck k : List Char)
    (h : lookupKey ((lines.foldl fmStep (fm, ck)).1) k = none) :
    ∀ l ∈ lines, l.contains ':' = true → keyOf l ≠ k := by
  induction lines generalizing fm ck with
  | nil => intro l hl; simp at hl
  | cons l0 ls ih =>
    rw [List.foldl_cons] at h
    intro l hl hc
    rcases List.mem_cons.mp hl with rfl | hl'
    · intro hk
      rw [fmStep_eq, if_pos hc] at h
      have hpres : (lookupKey (setKey fm (keyOf l) (mkVal (valOf l))) k).isSome = true := by
        rw [lookupKey_setKey, if_pos hk]
        rfl
      have hfin := foldl_fmStep_presence ls _ (keyOf l) k hpres
      rw [h] at hfin
      simp at hfin
    · have h' : lookupKey ((ls.foldl fmStep
          ((fmStep (fm, ck) l0).1, (fmStep (fm, ck) l0).2)).1) k = none := by
        simpa using h
      exact ih _ _ h' l hl' hc

theorem foldl_fmStep_lookup_preserved (lines : List (List Char)) (fm : Fm) (ck k : List Char)
    (hck : ck ≠ k)
    (hcol : ∀ l ∈ lines, l.contains ':' = true → keyOf l ≠ k) :
    lookupKey ((lines.foldl fmStep (fm, ck)).1) k = lookupKey fm k := by
  induction lines generalizing fm ck with
  | nil => rfl
  | cons l0 ls ih =>
    rw [List.foldl_cons, fmStep_eq]
    have hcol0 := fun hc => hcol l0 (List.mem_cons_self l0 ls) hc
    have hcolt : ∀ l ∈ ls, l.contains ':' = true → keyOf l ≠ k :=
      fun l hl hc => hcol l (List.mem_cons_of_mem l0 hl) hc
    by_cases hc : l0.contains ':' = true
    · rw [if_pos hc, ih _ _ (hcol0 hc) hcolt, lookupKey_setKey, if_neg (hcol0 hc)]
    · rw [if_neg hc]
      by_cases hd : ((chars "-").isPrefixOf (trim l0) && !ck.isEmpty) = true
      · rw [if_pos hd, ih _ _ hck hcolt, lookupKey_setKey, if_neg hck]
      · rw [if_neg hd]
        exact ih _ _ hck hcolt

theorem foldl_fmStep_lookup_selfck (lines : List (List Char)) (fm : Fm) (k : List Char)
    (hcol : ∀ l ∈ lines, l.contains ':' = true → keyOf l ≠ k)
    (hlead : ∀ l ∈ lines.takeWhile (fun l => !(l.contains ':')),
      ((chars "-").isPrefixOf (trim l)) = false) :
    lookupKey ((lines.foldl fmStep (fm, k)).1) k = lookupKey fm k := by
  induction lines generalizing fm with
  | nil => rfl
  | cons l0 ls ih =>
    rw [List.foldl_cons, fmStep_eq]
    have hcol0 := fun hc => hcol l0 (List.mem_cons_self l0 ls) hc
    have hcolt : ∀ l ∈ ls, l.contains ':' = true → keyOf l ≠ k :=
      fun l hl hc => hcol l (List.mem_cons_of_mem l0 hl) hc
    by_cases hc : l0.contains ':' = true
    · rw [if_pos hc,
        foldl_fmStep_lookup_preserved ls _ _ k (hcol0 hc) hcolt,
        lookupKey_setKey, if_neg (hcol0 hc)]
    · rw [if_neg hc]
      have htw : (l0 :: ls).takeWhile (fun l => !(l.contains ':')) =
          l0 :: ls.takeWhile (fun l => !(l.contains ':')) := by
        have hcfalse : l0.contains ':' = false := by
          rw [Bool.not_eq_true] at hc
          exact hc
        rw [List.takeWhile_cons, hcfalse]
        rfl
      have hl0 : ((chars "-").isPrefixOf (trim l0)) = false := by
        apply hlead
        rw [htw]
        exact List.mem_cons_self _ _
      have hcond : ((chars "-").isPrefixOf (trim l0) && !k.isEmpty) = false := by
        rw [hl0, Bool.false_and]
      rw [hcond]
      simp only [Bool.false_eq_true, if_false]
      exact ih _ hcolt (fun l hl => hlead l (by rw [htw]; exact List.mem_cons_of_mem l0 hl))

theorem getFrontmatter_isSome_iff (t : List Char) :
    (getFrontmatter t).isSome = true ↔
      ∃ l1 ls, splitNl t = chars "---" :: l1 :: ls ∧
        ∃ m ∈ ls, (chars "---").isPrefixOf m = true := by
  have hgf : (getFrontmatter t).isSome = (fmBody t).isSome := by
    rw [getFrontmatter, optIsSome_map]
  obtain ⟨r, rs, h⟩ := splitNl_shape t
  cases rs with
  | nil =>
    rw [hgf, fmBody_single h]
    simp only [Option.isSome_none, Bool.false_eq_true, false_iff]
    rintro ⟨l1, ls, hsp, -⟩
    rw [h] at hsp
    simp at hsp
  | cons l1 ls =>
    by_cases hr : r = chars "---"
    · subst hr
      rw [hgf, fmBody_of_lines h, optIsSome_map, takeToClose_isSome_iff]
      constructor
      · rintro ⟨m, hm, hpm⟩
        exact ⟨l1, ls, h, m, hm, hpm⟩
      · rintro ⟨l1', ls', hsp, m, hm, hpm⟩
        rw [h] at hsp
        have h2 := (List.cons.inj hsp).2
        have hls' : ls = ls' := (List.cons.inj h2).2
        exact ⟨m, hls' ▸ hm, hpm⟩
    · rw [hgf, fmBody_not_dashes h hr]
      simp only [Option.isSome_none, Bool.false_eq_true, false_iff]
      rintro ⟨l1', ls', hsp, -⟩
      rw [h] at hsp
      exact hr (List.cons.inj hsp).1

/-! ## Claim C2: image dedup -/

/-- C2: the dedup-guarded image copy is skipped exactly when both stats
succeed and the byte sizes are equal; any stat failure makes
`fileExistsWithSameSize` return `false`, forcing a copy attempt.  With
source size 100 and destination size 100 no copy call occurs; with sizes
100 and 50 a copy occurs and overwrites the destination (which
afterwards stats at size 100). -/
theorem dedup_skip_iff :
    (∀ (stat : List Char → Option Nat) (s d : List Char),
      (fileExistsWithSameSize stat s d = true ↔
        ∃ a b, stat s = some a ∧ stat d = some b ∧ a = b) ∧
      ((copyStep stat s d).1 = true ↔ fileExistsWithSameSize stat s d = false)) ∧
    (copyStep (fun p => if p = chars "src/img.png" then some 100
        else if p = chars "dst/img.png" then some 100 else none)
      (chars "src/img.png") (chars "dst/img.png")).1 = false ∧
    (copyStep (fun p => if p = chars "src/img.png" then some 100
        else if p = chars "dst/img.png" then some 50 else none)
      (chars "src/img.png") (chars "dst/img.png")).1 = true ∧
    ((copyStep (fun p => if p = chars "src/img.png" then some 100
        else if p = chars "dst/img.png" then some 50 else none)
      (chars "src/img.png") (chars "dst/img.png")).2 (chars "dst/img.png")) = some 100 := by
  refine ⟨?_, by decide, by decide, by decide⟩
  intro stat s d
  constructor
  · cases hs : stat s with
    | none => simp [fileExistsWithSameSize, hs]
    | some a =>
      cases hd : stat d with
      | none => simp [fileExistsWithSameSize, hs, hd]
      | some b => simp [fileExistsWithSameSize, hs, hd]
  · by_cases he : fileExistsWithSameSize stat s d = true
    · simp [copyStep, he]
    · rw [Bool.not_eq_true] at he
      simp [copyStep, he]

/-! ## Claim C5: frontmatter list continuation -/

/-- C5 counterexample: parsing `---\nk: a\n- b\n---` yields `k = ["b"]`;
the previously parsed scalar `"a"` is discarded, contrary to the claim
that it becomes part of the resulting list. -/
theorem continuation_claim_cex :
    getFrontmatter (chars "---\nk: a\n- b\n---") =
      some [(chars "k", FmVal.list [chars "b"])] ∧
    getFrontmatter (chars "---\nk: a\n- b\n---") ≠
      some [(chars "k", FmVal.list [chars "a", chars "b"])] :=
  ⟨by decide, by decide⟩

/-- C5 (amended): a colon-free body line whose trimmed form starts with
`-`, seen while the current key is non-empty, updates that key: when the
key's value is already a list the trimmed item is appended; when the
value is a scalar, or the key is unset, the value is replaced by a fresh
singleton list — the previously parsed scalar is discarded, not kept. -/
theorem continuation_amended (fm : Fm) (ck line : List Char)
    (hcol : line.contains ':' = false)
    (hdash : (chars "-").isPrefixOf (trim line) = true)
    (hck : ck ≠ []) :
    (∀ xs, lookupKey fm ck = some (FmVal.list xs) →
      fmStep (fm, ck) line =
        (setKey fm ck (FmVal.list (xs ++ [trim ((trim line).drop 1)])), ck)) ∧
    (∀ s, lookupKey fm ck = some (FmVal.str s) →
      fmStep (fm, ck) line =
        (setKey fm ck (FmVal.list [trim ((trim line).drop 1)]), ck)) ∧
    (lookupKey fm ck = none →
      fmStep (fm, ck) line =
        (setKey fm ck (FmVal.list [trim ((trim line).drop 1)]), ck)) := by
  have hckb : (!ck.isEmpty) = true := by
    cases ck with
    | nil => exact absurd rfl hck
    | cons a t => rfl
  have hcond : ((chars "-").isPrefixOf (trim line) && !ck.isEmpty) = true := by
    rw [hdash, hckb]
    rfl
  refine ⟨fun xs hx => ?_, fun s hx => ?_, fun hx => ?_⟩ <;>
    · rw [fmStep_eq]
      simp only [hcol, Bool.false_eq_true, if_false, hcond, if_true, hx]

/-- C5 witness: the amended rule applied to the concrete state
`{k ↦ "a"}` with current key `k` and line `- b`. -/
theorem continuation_amended_witness :
    (∀ xs, lookupKey [(chars "k", FmVal.str (chars "a"))] (chars "k") =
        some (FmVal.list xs) →
      fmStep ([(chars "k", FmVal.str (chars "a"))], chars "k") (chars "- b") =
        (setKey [(chars "k", FmVal.str (chars "a"))] (chars "k")
          (FmVal.list (xs ++ [trim ((trim (chars "- b")).drop 1)])), chars "k")) ∧
    (∀ s, lookupKey [(chars "k", FmVal.str (chars "a"))] (chars "k") =
        some (FmVal.str s) →
      fmStep ([(chars "k", FmVal.str (chars "a"))], chars "k") (chars "- b") =
        (setKey [(chars "k", FmVal.str (chars "a"))] (chars "k")
          (FmVal.list [trim ((trim (chars "- b")).drop 1)]), chars "k")) ∧
    (lookupKey [(chars "k", FmVal.str (chars "a"))] (chars "k") = none →
      fmStep ([(chars "k", FmVal.str (chars "a"))], chars "k") (chars "- b") =
        (setKey [(chars "k", FmVal.str (chars "a"))] (chars "k")
          (FmVal.list [trim ((trim (chars "- b")).drop 1)]), chars "k")) :=
  continuation_amended [(chars "k", FmVal.str (chars "a"))] (chars "k") (chars "- b")
    (by decide) (by decide) (by decide)

/-! ## Claim C6: publish tag gate -/

/-- C6 counterexample: with frontmatter `tags: #publish` the parsed
`tags` value is the scalar string `"#publish"`, not a list, yet the
publish gate passes (JS `String.prototype.includes` is substring
containment) — contradicting the claim that the gate passes only when
`tags` is a list. -/
theorem publish_gate_claim_cex :
    publishTagGate (getFrontmatter (chars "---\ntags: #publish\n---\nx")) = true ∧
    getFrontmatter (chars "---\ntags: #publish\n---\nx") =
      some [(chars "tags", FmVal.str (chars "#publish"))] ∧
    (∀ xs, FmVal.str (chars "#publish") ≠ FmVal.list xs) :=
  ⟨by decide, by decide, fun _ h => by cases h⟩

/-- C6 (amended): the publish tag gate passes exactly when the
frontmatter is non-null and holds a `tags` value that either is a list
containing the element `#publish`, or is a non-empty scalar string
containing `#publish` as a substring; `tags: [#journal]` is skipped and
`tags: [#publish, #journal]` proceeds. -/
theorem publish_gate_amended :
    (∀ fm? : Option Fm,
      publishTagGate fm? = true ↔
        ∃ fm, fm? = some fm ∧ ∃ v, lookupKey fm (chars "tags") = some v ∧
          ((∃ xs, v = FmVal.list xs ∧ chars "#publish" ∈ xs) ∨
           (∃ s, v = FmVal.str s ∧ s ≠ [] ∧ hasSub (chars "#publish") s = true))) ∧
    publishTagGate (getFrontmatter (chars "---\ntags: [#journal]\n---\nx")) = false ∧
    publishTagGate (getFrontmatter (chars "---\ntags: [#publish, #journal]\n---\nx")) = true := by
  refine ⟨?_, by decide, by decide⟩
  intro fm?
  cases fm? with
  | none => simp [publishTagGate]
  | some fm =>
    cases hv : lookupKey fm (chars "tags") with
    | none => simp [publishTagGate, hv]
    | some v =>
      cases v with
      | str s =>
        have hg : publishTagGate (some fm) =
            (!s.isEmpty && hasSub (chars "#publish") s) := by
          simp [publishTagGate, hv, truthyVal, valIncludes]
        rw [hg]
        constructor
        · intro h
          rw [Bool.and_eq_true] at h
          have hne : s ≠ [] := by
            intro e
            rw [e] at h
            exact absurd h.1 (by decide)
          exact ⟨fm, rfl, FmVal.str s, hv, Or.inr ⟨s, rfl, hne, h.2⟩⟩
        · rintro ⟨fm', hfm', v, hv', hdisj⟩
          cases Option.some.inj hfm'
          rw [hv] at hv'
          cases Option.some.inj hv'
          rcases hdisj with ⟨xs, hxs, -⟩ | ⟨s', hs', hne, hsub⟩
          · cases hxs
          · cases FmVal.str.inj hs'
            rw [hsub, Bool.and_true, Bool.not_eq_true', List.isEmpty_eq_false]
            exact hne
      | list xs =>
        have hg : publishTagGate (some fm) = xs.contains (chars "#publish") := by
          simp [publishTagGate, hv, truthyVal, valIncludes]
        rw [hg]
        constructor
        · intro h
          refine ⟨fm, rfl, FmVal.list xs, hv, Or.inl ⟨xs, rfl, ?_⟩⟩
          rw [List.contains] at h
          exact List.elem_iff.mp h
        · rintro ⟨fm', hfm', v, hv', hdisj⟩
          cases Option.some.inj hfm'
          rw [hv] at hv'
          cases Option.some.inj hv'
          rcases hdisj with ⟨xs', hxs', hmem⟩ | ⟨s', hs', -, -⟩
          · cases FmVal.list.inj hxs'
            rw [List.contains]
            exact List.elem_iff.mpr hmem
          · cases hs'

/-! ## Claim C7: daily-note filter -/

/-- C7 counterexample: `2024-01-05.backup.md` — its extension-stripped
form `2024-01-05.backup` does not match the date pattern, so the claim
says the note proceeds, yet the code (which tests the segment before the
FIRST dot, `filename.split(".")[0]`) skips it. -/
theorem daily_filter_claim_cex :
    isDailyFilename (chars "2024-01-05.backup.md") = true ∧
    specStripExt (chars "2024-01-05.backup.md") = chars "2024-01-05.backup" ∧
    isDateShape (specStripExt (chars "2024-01-05.backup.md")) = false :=
  ⟨by decide, by decide, by decide⟩

/-- C7 (amended): export and publish skip a note exactly when the
segment of its filename before the first dot is ten characters of the
shape `dddd-dd-dd` (strict two-digit `YYYY-MM-DD`); `2024-01-05.md` is
skipped and `2024-1-5.md` proceeds. -/
theorem daily_filter_amended :
    (∀ f : List Char,
      isDailyFilename f = true ↔
        ∃ y1 y2 y3 y4 m1 m2 d1 d2 : Char,
          f.takeWhile (fun c => c ≠ '.') =
            [y1, y2, y3, y4, '-', m1, m2, '-', d1, d2] ∧
          (y1.isDigit && y2.isDigit && y3.isDigit && y4.isDigit &&
           m1.isDigit && m2.isDigit && d1.isDigit && d2.isDigit) = true) ∧
    isDailyFilename (chars "2024-01-05.md") = true ∧
    isDailyFilename (chars "2024-1-5.md") = false := by
  refine ⟨?_, by decide, by decide⟩
  intro f
  rw [isDailyFilename]
  generalize f.takeWhile (fun c => c ≠ '.') = seg
  constructor
  · intro h
    rcases seg with _ | ⟨a, _ | ⟨b, _ | ⟨c, _ | ⟨d, _ | ⟨e, _ | ⟨f', _ | ⟨g, _ |
      ⟨h2, _ | ⟨i, _ | ⟨j, _ | ⟨k, rest⟩⟩⟩⟩⟩⟩⟩⟩⟩⟩⟩ <;>
      try exact absurd h Bool.false_ne_true
    have hx : (a.isDigit && b.isDigit && c.isDigit && d.isDigit && (e = '-') &&
        f'.isDigit && g.isDigit && (h2 = '-') && i.isDigit && j.isDigit) = true := h
    simp only [Bool.and_eq_true, decide_eq_true_eq] at hx
    obtain ⟨⟨⟨⟨⟨⟨⟨⟨⟨h1, hb⟩, hc⟩, hd⟩, he⟩, hf⟩, hg⟩, hh⟩, hi⟩, hj⟩ := hx
    subst he
    subst hh
    exact ⟨a, b, c, d, f', g, i, j, rfl, by simp [h1, hb, hc, hd, hf, hg, hi, hj]⟩
  · rintro ⟨y1, y2, y3, y4, m1, m2, d1, d2, hseg, hdig⟩
    subst hseg
    simp only [Bool.and_eq_true] at hdig
    obtain ⟨⟨⟨⟨⟨⟨⟨h1, h2⟩, h3⟩, h4⟩, h5⟩, h6⟩, h7⟩, h8⟩ := hdig
    show (y1.isDigit && y2.isDigit && y3.isDigit && y4.isDigit && ('-' = '-') &&
        m1.isDigit && m2.isDigit && ('-' = '-') && d1.isDigit && d2.isDigit) = true
    simp [h1, h2, h3, h4, h5, h6, h7, h8]

/-! ## Claim C10: no-frontmatter no-op -/

/-- C10: a note text that does not begin with `---` followed by a
newline parses to null frontmatter, and both the date and the title
injection step leave it byte-identical — the splice regex `^---\n` has
nothing to anchor on. -/
theorem no_frontmatter_noop (today title content : List Char)
    (h : (chars "---\n").isPrefixOf content = false) :
    getFrontmatter content = none ∧
    dateStep (getFrontmatter content) today content = content ∧
    titleStep (getFrontmatter content) title content = content := by
  have hfb : fmBody content = none := by
    rw [fmBody]
    simp [h]
  have hgf : getFrontmatter content = none := by rw [getFrontmatter, hfb]; rfl
  refine ⟨hgf, ?_, ?_⟩
  · rw [dateStep, hgf]
    simp only [fmTruthy, Bool.false_eq_true, if_false, injectAfterOpen]
    simp [h]
  · rw [titleStep, hgf]
    simp only [fmTruthy, Bool.false_eq_true, if_false, injectAfterOpen]
    simp [h]

/-- C10 witness: the no-op at the concrete text `hello world`. -/
theorem no_frontmatter_noop_witness :
    getFrontmatter (chars "hello world") = none ∧
    dateStep (getFrontmatter (chars "hello world")) (chars "2024-06-01")
      (chars "hello world") = chars "hello world" ∧
    titleStep (getFrontmatter (chars "hello world")) (chars "my title")
      (chars "hello world") = chars "hello world" :=
  no_frontmatter_noop (chars "2024-06-01") (chars "my title") (chars "hello world")
    (by decide)

/-! ## Claim C3: normalizer idempotence -/

/-- C3 counterexample: on a text whose frontmatter block is unclosed
(`---\nx`) the parse is null on every run, so the second run splices a
second `date:`/`title:` pair — the normalizer is not idempotent on all
note texts. -/
theorem normalizer_idem_cex :
    normalize (chars "2024-06-01") (chars "t")
        (normalize (chars "2024-06-01") (chars "t") (chars "---\nx")) ≠
      normalize (chars "2024-06-01") (chars "t") (chars "---\nx") := by decide

/-- Sufficient conditions under which one normalizer run is the
identity: date and title parse truthy, no truthy `hugoAliases`, and no
`aliases:` line still holds two quote characters. -/
theorem normalize_fixpoint (today title y : List Char)
    (h1 : fmTruthy (getFrontmatter y) (chars "date") = true)
    (h2 : fmTruthy (getFrontmatter y) (chars "title") = true)
    (h3 : fmTruthy (getFrontmatter y) (chars "hugoAliases") = false)
    (h4 : ∀ l ∈ splitNl y, (chars "aliases:").isPrefixOf l = true →
      l.count quoteChar < 2) :
    normalize today title y = y := by
  rw [normalize]
  simp only [dateStep, h1, if_true, titleStep, h2, hugoStep, h3,
    Bool.false_eq_true, if_false]
  rw [stripAliasQuotes]
  have hmap : (splitNl y).map stripAliasLine = splitNl y := by
    rw [List.map_congr_left (g := id) ?_, List.map_id]
    intro l hl
    rw [stripAliasLine]
    by_cases hp : (chars "aliases:").isPrefixOf l = true
    · have hq : (decide (2 ≤ l.count quoteChar)) = false := by
        rw [decide_eq_false_iff_not]
        have := h4 l hl hp
        omega
      have hcond : ((chars "aliases:").isPrefixOf l &&
          decide (2 ≤ List.count quoteChar l)) = false := by
        rw [hq, Bool.and_false]
      simp only [hcond, Bool.false_eq_true, if_false]
      rfl
    · have hpf : (chars "aliases:").isPrefixOf l = false := by
        rw [Bool.not_eq_true] at hp
        exact hp
      have hcond : ((chars "aliases:").isPrefixOf l &&
          decide (2 ≤ List.count quoteChar l)) = false := by
        rw [hpf, Bool.false_and]
      simp only [hcond, Bool.false_eq_true, if_false]
      rfl
  rw [hmap, joinNl_splitNl]

/-- C3 (amended): a second normalizer run on the output of a first is
the identity, provided that output parses with truthy `date` and
`title`, has no truthy `hugoAliases` key, and no `aliases:` line of it
retains two single-quote characters.  (Without these conditions the
second run is not a no-op: see the unclosed-block counterexample, or an
`aliases:` line with two quoted items, which loses one quote pair per
run.) -/
theorem normalizer_idem_amended (today title c : List Char)
    (h1 : fmTruthy (getFrontmatter (normalize today title c)) (chars "date") = true)
    (h2 : fmTruthy (getFrontmatter (normalize today title c)) (chars "title") = true)
    (h3 : fmTruthy (getFrontmatter (normalize today title c)) (chars "hugoAliases") = false)
    (h4 : ∀ l ∈ splitNl (normalize today title c),
      (chars "aliases:").isPrefixOf l = true → l.count quoteChar < 2) :
    normalize today title (normalize today title c) = normalize today title c :=
  normalize_fixpoint today title (normalize today title c) h1 h2 h3 h4

/-- C3 witness: idempotence at a concrete already-normalized note. -/
theorem normalizer_idem_witness :
    normalize (chars "2024-06-01") (chars "t")
        (normalize (chars "2024-06-01") (chars "t")
          (chars "---\ndate: 2020-01-01\ntitle: t\n---\nbody")) =
      normalize (chars "2024-06-01") (chars "t")
        (chars "---\ndate: 2020-01-01\ntitle: t\n---\nbody") :=
  normalizer_idem_amended (chars "2024-06-01") (chars "t")
    (chars "---\ndate: 2020-01-01\ntitle: t\n---\nbody")
    (by decide) (by decide) (by decide) (by decide)

/-! ## Claim C8: frontmatter parse shape -/

/-- C8 counterexample: the text `---\na: b\n----` has no line containing
only `---` after the opening one, so it lacks the claimed exact shape,
yet `getFrontmatter` is non-null — the regex accepts any closing line
that merely starts with `---`. -/
theorem frontmatter_shape_claim_cex :
    (getFrontmatter (chars "---\na: b\n----")).isSome = true ∧
    specLeadingShape (chars "---\na: b\n----") = false :=
  ⟨by decide, by decide⟩

/-- C8 (amended): `getFrontmatter` returns non-null exactly when the
first line of the text is exactly `---`, at least one line follows it,
and some line at index ≥ 2 merely STARTS with `---` (the closing
delimiter is a prefix match, and it cannot be the second line because
the regex needs a newline-terminated opening line plus a `\n---`
occurrence strictly inside the remainder). -/
theorem frontmatter_shape_amended (t : List Char) :
    (getFrontmatter t).isSome = true ↔
      ∃ l1 ls, splitNl t = chars "---" :: l1 :: ls ∧
        ∃ m ∈ ls, (chars "---").isPrefixOf m = true :=
  getFrontmatter_isSome_iff t

/-! ## Claim C1: caption consumption -/

/-- C1 counterexample: for `![[img.png]]\nNot a caption line here` (no
following blank line) the claim predicts caption `""` with the second
line kept, but the code claims the caption — `i + 2 >= lines.length`
makes past-end-of-text count as the blank terminator, consuming the
line. -/
theorem caption_claim_cex :
    processLines (fun _ => true)
        (splitNl (chars "![[img.png]]\nNot a caption line here")) ≠
      [figLine (chars "img.png") [], chars "Not a caption line here"] := by
  decide

/-- C1 (amended): in the line-oriented image engine, the line after a
resolved-and-copied embed is consumed as the figure caption exactly when
it is non-blank, contains no embed token, and the line after it is blank
or past end-of-text; the consumed line's trimmed text becomes the
caption and the line is dropped, otherwise the caption is empty and the
line is kept.  `![[img.png]]\nMy caption\n\nNext paragraph` yields
caption `My caption` with the caption line removed, and
`![[img.png]]\nNot a caption line here` (where the caption candidate is
the last line of the text) also consumes it, yielding caption
`Not a caption line here`. -/
theorem caption_rule_amended :
    (∀ (ok : List Char → Bool) (name l l1 : List Char) (rest : List (List Char)),
      matchEmbed l = some name → ok name = true →
      processLines ok (l :: l1 :: rest) =
        (if trim l1 ≠ [] ∧ matchEmbed l1 = none ∧
            (rest = [] ∨ trim (rest.headD []) = [])
         then figLine name (trim l1) :: processLines ok rest
         else figLine name [] :: processLines ok (l1 :: rest))) ∧
    processLines (fun _ => true)
        (splitNl (chars "![[img.png]]\nMy caption\n\nNext paragraph")) =
      [figLine (chars "img.png") (chars "My caption"), [], chars "Next paragraph"] ∧
    processLines (fun _ => true)
        (splitNl (chars "![[img.png]]\nNot a caption line here")) =
      [figLine (chars "img.png") (chars "Not a caption line here")] := by
  refine ⟨?_, by decide, by decide⟩
  intro ok name l l1 rest hm hok
  rw [processLines.eq_def]
  simp only [hm, hok, if_true]
  by_cases hc1 : trim l1 = []
  · have hb : ((!(trim l1).isEmpty && !hasEmbed l1)) = false := by
      rw [hc1]
      rfl
    rw [hb]
    simp only [Bool.false_eq_true, if_false]
    rw [if_neg (fun hcon => hcon.1 hc1)]
  · have hb1 : (trim l1).isEmpty = false := by
      rw [List.isEmpty_eq_false]
      exact hc1
    by_cases hc2 : matchEmbed l1 = none
    · have hb2 : hasEmbed l1 = false := by
        rw [hasEmbed, hc2]
        rfl
      have hb : ((!(trim l1).isEmpty && !hasEmbed l1)) = true := by
        rw [hb1, hb2]
        rfl
      rw [hb]
      simp only [if_true]
      by_cases hc3 : rest = []
      · subst hc3
        have hb3 : ((List.isEmpty ([] : List (List Char))) ||
            (trim (([] : List (List Char)).headD [])).isEmpty) = true := rfl
        rw [hb3]
        simp only [if_true]
        rw [if_pos ⟨hc1, hc2, Or.inl (by trivial)⟩]
      · by_cases hc4 : trim (rest.headD []) = []
        · have hb3 : ((rest.isEmpty) || (trim (rest.headD [])).isEmpty) = true := by
            rw [hc4]
            simp
          rw [hb3]
          simp only [if_true]
          rw [if_pos ⟨hc1, hc2, Or.inr hc4⟩]
        · have hbe : rest.isEmpty = false := by
            rw [List.isEmpty_eq_false]
            exact hc3
          have hb4 : (trim (rest.headD [])).isEmpty = false := by
            rw [List.isEmpty_eq_false]
            exact hc4
          have hb3 : ((rest.isEmpty) || (trim (rest.headD [])).isEmpty) = false := by
            rw [hbe, hb4]
            rfl
          rw [hb3]
          simp only [Bool.false_eq_true, if_false]
          rw [if_neg (fun hcon => by
            rcases hcon.2.2 with h | h
            · exact hc3 h
            · exact hc4 h)]
    · have hb2 : hasEmbed l1 = true := by
        rw [hasEmbed, Option.isSome_iff_ne_none]
        exact hc2
      have hb : ((!(trim l1).isEmpty && !hasEmbed l1)) = false := by
        rw [hb2, Bool.not_true, Bool.and_false]
      rw [hb]
      simp only [Bool.false_eq_true, if_false]
      rw [if_neg (fun hcon => hc2 hcon.2.1)]

/-- C1 witness: the amended rule instantiated at the two-line text
`![[a]]` + `cap` with every embed resolving. -/
theorem caption_rule_witness :
    processLines (fun _ => true) (chars "![[a]]" :: chars "cap" :: []) =
      (if trim (chars "cap") ≠ [] ∧ matchEmbed (chars "cap") = none ∧
          (([] : List (List Char)) = [] ∨
            trim (([] : List (List Char)).headD []) = [])
       then figLine (chars "a") (trim (chars "cap")) ::
            processLines (fun _ => true) []
       else figLine (chars "a") [] ::
            processLines (fun _ => true) (chars "cap" :: [])) :=
  caption_rule_amended.1 (fun _ => true) (chars "a") (chars "![[a]]")
    (chars "cap") [] (by decide) rfl

/-! ## Claim C9: snapshot link rewrite -/

theorem rewriteLinks_nil (enc : List Char → List Char) : rewriteLinks enc [] = [] := by
  rw [rewriteLinks]

theorem hasSub_cons (pat : List Char) (c : Char) (cs : List Char) :
    hasSub pat (c :: cs) = (pat.isPrefixOf (c :: cs) || hasSub pat cs) := rfl

theorem upToSub_cons (pat : List Char) (c : Char) (cs : List Char) :
    upToSub pat (c :: cs) =
      if pat.isPrefixOf (c :: cs) = true then some []
      else (upToSub pat cs).map (c :: ·) := rfl

theorem upToSub_closes {inner rest : List Char}
    (h : hasSub (chars "]]") (inner ++ [']']) = false) :
    upToSub (chars "]]") (inner ++ (']' :: ']' :: rest)) = some inner := by
  induction inner with
  | nil =>
    have e : chars "]]" = [']', ']'] := rfl
    rw [List.nil_append, upToSub_cons]
    have hp : (chars "]]").isPrefixOf (']' :: ']' :: rest) = true := by
      rw [e]
      simp [List.isPrefixOf]
    rw [if_pos hp]
  | cons c inner' ih =>
    have e1 : (c :: inner') ++ [']'] = c :: (inner' ++ [']']) := rfl
    rw [e1, hasSub_cons, Bool.or_eq_false_iff] at h
    obtain ⟨hpre, htail⟩ := h
    have e2 : (c :: inner') ++ (']' :: ']' :: rest) =
        c :: (inner' ++ (']' :: ']' :: rest)) := rfl
    rw [e2, upToSub_cons]
    have hpre2 : (chars "]]").isPrefixOf (c :: (inner' ++ (']' :: ']' :: rest))) = false := by
      have e : chars "]]" = [']', ']'] := rfl
      rw [e] at hpre ⊢
      cases inner' with
      | nil =>
        simp only [List.nil_append] at hpre ⊢
        simp only [List.isPrefixOf] at hpre ⊢
        simpa using hpre
      | cons y z =>
        simp only [List.cons_append] at hpre ⊢
        simp only [List.isPrefixOf] at hpre ⊢
        simpa using hpre
    simp only [hpre2, Bool.false_eq_true, if_false]
    rw [ih htail]
    rfl

/-- C9: the snapshot preprocessing rewrites each wiki-link `[[text]]`
(lazy capture up to the first following `]]`) into the markdown link
`[text](obsidian://open?vault=jonbo-notes-site-sync&file=ENC)` with `ENC`
the URL-encoded text, and continues after the replacement; in particular
`[[Some Note]]` becomes a link whose target is
`obsidian://open?vault=jonbo-notes-site-sync&file=Some%20Note`. -/
theorem link_rewrite_correct :
    (∀ (enc : List Char → List Char) (inner rest : List Char),
      hasSub (chars "]]") (inner ++ [']']) = false →
      rewriteLinks enc (chars "[[" ++ inner ++ chars "]]" ++ rest) =
        '[' :: inner ++ obsidianMid ++ enc inner ++ ')' :: rewriteLinks enc rest) ∧
    rewriteLinks encodeURIComponent (chars "[[Some Note]]") =
      chars "[Some Note](obsidian://open?vault=jonbo-notes-site-sync&file=Some%20Note)" := by
  have main : ∀ (enc : List Char → List Char) (inner rest : List Char),
      hasSub (chars "]]") (inner ++ [']']) = false →
      rewriteLinks enc (chars "[[" ++ inner ++ chars "]]" ++ rest) =
        '[' :: inner ++ obsidianMid ++ enc inner ++ ')' :: rewriteLinks enc rest := by
    intro enc inner rest h
    have e1 : chars "[[" ++ inner ++ chars "]]" ++ rest =
        '[' :: '[' :: (inner ++ (']' :: ']' :: rest)) := by
      have e2 : chars "[[" = ['[', '['] := rfl
      have e3 : chars "]]" = [']', ']'] := rfl
      rw [e2, e3]
      simp
    rw [e1, rewriteLinks]
    have hp : (chars "[[").isPrefixOf ('[' :: '[' :: (inner ++ (']' :: ']' :: rest))) = true := by
      have e2 : chars "[[" = ['[', '['] := rfl
      rw [e2]
      simp [List.isPrefixOf]
    simp only [hp, if_true]
    have hu : upToSub (chars "]]")
        (('[' :: '[' :: (inner ++ (']' :: ']' :: rest))).drop 2) = some inner := by
      have e4 : ('[' :: '[' :: (inner ++ (']' :: ']' :: rest))).drop 2 =
          inner ++ (']' :: ']' :: rest) := rfl
      rw [e4]
      exact upToSub_closes h
    simp only [hu]
    have hd : ('[' :: '[' :: (inner ++ (']' :: ']' :: rest))).drop (4 + inner.length) =
        rest := by
      have h1 : ('[' :: '[' :: (inner ++ (']' :: ']' :: rest))).drop (4 + inner.length) =
          (inner ++ (']' :: ']' :: rest)).drop (inner.length + 2) := by
        rw [show 4 + inner.length = inner.length + 2 + 2 from by omega]
        rfl
      rw [h1, List.drop_append]
      rfl
    rw [hd]
  refine ⟨main, ?_⟩
  have h2 := main encodeURIComponent (chars "Some Note") [] (by decide)
  have e : chars "[[Some Note]]" = chars "[[" ++ chars "Some Note" ++ chars "]]" ++ [] := by
    decide
  rw [e, h2, rewriteLinks_nil]
  decide

/-- C9 witness: the rewrite rule at the concrete text `[[N]]!`. -/
theorem link_rewrite_witness :
    rewriteLinks encodeURIComponent (chars "[[" ++ chars "N" ++ chars "]]" ++ chars "!") =
      '[' :: chars "N" ++ obsidianMid ++ encodeURIComponent (chars "N") ++ ')' ::
        rewriteLinks encodeURIComponent (chars "!") :=
  link_rewrite_correct.1 encodeURIComponent (chars "N") (chars "!") (by decide)

/-! ## Claim C4: date-injection frame property -/

theorem dateShape_props {t : List Char} (h : isDateShape t = true) :
    t ≠ [] ∧ (∀ c ∈ t, isWsChar c = false) ∧ '\n' ∉ t ∧
      (chars "[").isPrefixOf t = false := by
  rcases t with _ | ⟨a, _ | ⟨b, _ | ⟨c, _ | ⟨d, _ | ⟨e, _ | ⟨f', _ | ⟨g, _ |
    ⟨h2, _ | ⟨i, _ | ⟨j, _ | ⟨k, rest⟩⟩⟩⟩⟩⟩⟩⟩⟩⟩⟩ <;>
    try exact absurd h Bool.false_ne_true
  have hx : (a.isDigit && b.isDigit && c.isDigit && d.isDigit && (e = '-') &&
      f'.isDigit && g.isDigit && (h2 = '-') && i.isDigit && j.isDigit) = true := h
  simp only [Bool.and_eq_true, decide_eq_true_eq] at hx
  obtain ⟨⟨⟨⟨⟨⟨⟨⟨⟨ha, hb⟩, hc⟩, hd⟩, he⟩, hf⟩, hg⟩, hh⟩, hi⟩, hj⟩ := hx
  subst he
  subst hh
  have hws : ∀ x ∈ [a, b, c, d, '-', f', g, '-', i, j], isWsChar x = false := by
    intro x hx
    simp only [List.mem_cons, List.not_mem_nil, or_false] at hx
    rcases hx with rfl | rfl | rfl | rfl | rfl | rfl | rfl | rfl | rfl | rfl
    · exact digit_not_ws ha
    · exact digit_not_ws hb
    · exact digit_not_ws hc
    · exact digit_not_ws hd
    · decide
    · exact digit_not_ws hf
    · exact digit_not_ws hg
    · decide
    · exact digit_not_ws hi
    · exact digit_not_ws hj
  refine ⟨by simp, hws, fun hmem => absurd (hws '\n' hmem) (by decide), ?_⟩
  have hane : ('[' == a) = false := by
    apply beq_eq_false_iff_ne.mpr
    intro e
    rw [← e] at ha
    exact absurd ha (by decide)
  have ech : chars "[" = ['['] := rfl
  rw [ech]
  simp [List.isPrefixOf, hane]

/-- C4 counterexample: on `---\n- x\n---\n` (well-formed block, parse
lacks `date`, but the first body line is a dash continuation line) the
injected `date:` line is hijacked: the dash line now continues the new
`date` entry, so the re-parse holds `date = ["x"]`, a list, not the
injected current date. -/
theorem date_inject_claim_cex :
    dateStep (getFrontmatter (chars "---\n- x\n---\n")) (chars "2024-06-01")
        (chars "---\n- x\n---\n") =
      chars "---\ndate: 2024-06-01\n- x\n---\n" ∧
    getFrontmatter (chars "---\n- x\n---\n") = some [] ∧
    getFrontmatter (chars "---\ndate: 2024-06-01\n- x\n---\n") =
      some [(chars "date", FmVal.list [chars "x"])] ∧
    FmVal.list [chars "x"] ≠ FmVal.str (chars "2024-06-01") :=
  ⟨by decide, by decide, by decide, by decide⟩

/-- C4 (amended): for a text with a well-formed leading frontmatter
block whose parse lacks `date`, and in which no block-body line before
the first colon-containing line is dash-prefixed (the case that would
re-bind the spliced entry as a list continuation), date injection
splices `date: <today>` directly after the opening `---` line, keeps
every other line byte-identical, and the output re-parses with a `date`
field equal to the injected date. -/
theorem date_inject_frame_amended (today content : List Char) (fm : Fm)
    (hfm : getFrontmatter content = some fm)
    (hdate : lookupKey fm (chars "date") = none)
    (htoday : isDateShape today = true)
    (hlead : ∀ l ∈ ((fmBody content).getD []).takeWhile (fun l => !(l.contains ':')),
      ((chars "-").isPrefixOf (trim l)) = false) :
    ∃ tl, splitNl content = chars "---" :: tl ∧
      dateStep (getFrontmatter content) today content =
        chars "---\n" ++ (chars "date: " ++ today) ++ '\n' :: content.drop 4 ∧
      splitNl (dateStep (getFrontmatter content) today content) =
        chars "---" :: (chars "date: " ++ today) :: tl ∧
      ∃ fm', getFrontmatter (dateStep (getFrontmatter content) today content) = some fm' ∧
        lookupKey fm' (chars "date") = some (FmVal.str today) := by
  obtain ⟨hne, hws, hnl, hbr⟩ := dateShape_props htoday
  have hsome : (getFrontmatter content).isSome = true := by rw [hfm]; rfl
  obtain ⟨l1, ls', hsplit, -⟩ := (getFrontmatter_isSome_iff content).mp hsome
  have hbody := fmBody_of_lines hsplit
  obtain ⟨bs', hbs'⟩ : ∃ bs', takeToClose ls' = some bs' := by
    apply Option.isSome_iff_exists.mp
    have h1 : (getFrontmatter content).isSome = (takeToClose ls').isSome := by
      rw [getFrontmatter, hbody, optIsSome_map, optIsSome_map]
    rw [← h1]
    exact hsome
  have hbodyC : fmBody content = some (l1 :: bs') := by
    rw [hbody, hbs']
    rfl
  have hfm2 : fm = parseFmLines (l1 :: bs') := by
    have hx : getFrontmatter content = some (parseFmLines (l1 :: bs')) := by
      rw [getFrontmatter, hbodyC]
      rfl
    rw [hfm] at hx
    exact Option.some.inj hx
  have hjoin := joinNl_splitNl content
  rw [hsplit] at hjoin
  have hcontent : content = chars "---" ++ '\n' :: joinNl (l1 :: ls') := by
    rw [← hjoin]
    simp [joinNl]
  have hdrop4 : content.drop 4 = joinNl (l1 :: ls') := by
    rw [hcontent]
    rfl
  have hpre : (chars "---\n").isPrefixOf content = true := by
    rw [hcontent]
    have e : chars "---\n" = ['-', '-', '-', '\n'] := rfl
    have e3 : chars "---" = ['-', '-', '-'] := rfl
    rw [e, e3]
    simp [List.isPrefixOf]
  have hfmT : fmTruthy (getFrontmatter content) (chars "date") = false := by
    rw [hfm]
    simp [fmTruthy, hdate]
  have hout : dateStep (getFrontmatter content) today content =
      chars "---\n" ++ (chars "date: " ++ today) ++ '\n' :: content.drop 4 := by
    rw [dateStep, hfmT]
    simp only [Bool.false_eq_true, if_false, injectAfterOpen, hpre, if_true]
  have hdlnl : '\n' ∉ chars "date: " ++ today := by
    intro hmem
    rcases List.mem_append.mp hmem with hmm | hmm
    · revert hmm
      decide
    · exact hnl hmm
  have hl1nl : '\n' ∉ l1 :=
    nlfree_of_mem_splitNl (by
      rw [hsplit]
      exact List.mem_cons_of_mem _ (List.mem_cons_self _ _))
  have hlsnl : ∀ m ∈ ls', '\n' ∉ m := fun m hm =>
    nlfree_of_mem_splitNl (by
      rw [hsplit]
      exact List.mem_cons_of_mem _ (List.mem_cons_of_mem _ hm))
  have hlsC : splitNl (content.drop 4) = l1 :: ls' := by
    rw [hdrop4]
    refine splitNl_joinNl (by simp) ?_
    intro m hm
    rcases List.mem_cons.mp hm with rfl | hm'
    · exact hl1nl
    · exact hlsnl m hm'
  have houtSplit :
      splitNl (chars "---\n" ++ (chars "date: " ++ today) ++ '\n' :: content.drop 4) =
        chars "---" :: (chars "date: " ++ today) :: l1 :: ls' := by
    have e : chars "---\n" ++ (chars "date: " ++ today) ++ '\n' :: content.drop 4 =
        chars "---" ++ '\n' :: ((chars "date: " ++ today) ++ '\n' :: content.drop 4) := rfl
    rw [e, splitNl_append_cons _ (by decide), splitNl_append_cons _ hdlnl, hlsC]
  have hcontains : (chars "date: " ++ today).contains ':' = true := rfl
  have hkey : keyOf (chars "date: " ++ today) = chars "date" := rfl
  have hval : valOf (chars "date: " ++ today) = today := by
    have e : valOf (chars "date: " ++ today) = trim (' ' :: today) := rfl
    rw [e]
    exact trim_space_cons hne hws
  have hmk : mkVal today = FmVal.str today := by
    rw [mkVal]
    simp only [hbr, Bool.false_and, Bool.false_eq_true, if_false]
  have hstep0 : fmStep (([] : Fm), ([] : List Char)) (chars "date: " ++ today) =
      ([(chars "date", FmVal.str today)], chars "date") := by
    rw [fmStep_eq, if_pos hcontains, hkey, hval, hmk]
    rfl
  have hcolkeys : ∀ l ∈ (l1 :: bs'), l.contains ':' = true → keyOf l ≠ chars "date" := by
    apply colkey_ne_of_lookup_none (l1 :: bs') ([] : Fm) ([] : List Char)
    have hpf : ((l1 :: bs').foldl fmStep (([] : Fm), ([] : List Char))).1 = fm := by
      rw [hfm2, parseFmLines]
    rw [hpf]
    exact hdate
  have hleads : ∀ l ∈ (l1 :: bs').takeWhile (fun l => !(l.contains ':')),
      ((chars "-").isPrefixOf (trim l)) = false := by
    intro l hl
    apply hlead
    rw [hbodyC]
    exact hl
  have hb2 : fmBody (chars "---\n" ++ (chars "date: " ++ today) ++ '\n' :: content.drop 4) =
      (takeToClose (l1 :: ls')).map (fun bs => (chars "date: " ++ today) :: bs) :=
    fmBody_of_lines houtSplit
  refine ⟨l1 :: ls', hsplit, hout, by rw [hout, houtSplit], ?_⟩
  rw [hout]
  by_cases hcl : (chars "---").isPrefixOf l1 = true
  · have htc : takeToClose (l1 :: ls') = some [] := by
      rw [takeToClose, if_pos hcl]
    have hbOut : fmBody (chars "---\n" ++ (chars "date: " ++ today) ++ '\n' :: content.drop 4) =
        some [chars "date: " ++ today] := by
      rw [hb2, htc]
      rfl
    refine ⟨parseFmLines [chars "date: " ++ today], ?_, ?_⟩
    · rw [getFrontmatter, hbOut]
      rfl
    · rw [parseFmLines, List.foldl_cons, hstep0, List.foldl_nil]
      simp [lookupKey]
  · have htc : takeToClose (l1 :: ls') = (takeToClose ls').map (l1 :: ·) := by
      rw [takeToClose, if_neg hcl]
    have hbOut : fmBody (chars "---\n" ++ (chars "date: " ++ today) ++ '\n' :: content.drop 4) =
        some ((chars "date: " ++ today) :: l1 :: bs') := by
      rw [hb2, htc, hbs']
      rfl
    refine ⟨parseFmLines ((chars "date: " ++ today) :: l1 :: bs'), ?_, ?_⟩
    · rw [getFrontmatter, hbOut]
      rfl
    · rw [parseFmLines, List.foldl_cons, hstep0,
        foldl_fmStep_lookup_selfck (l1 :: bs') _ (chars "date") hcolkeys hleads]
      simp [lookupKey]

/-- C4 witness: the amended frame property at the concrete note
`---\ntitle: t\n---\nbody` with today `2024-06-01`. -/
theorem date_inject_frame_witness :
    ∃ tl, splitNl (chars "---\ntitle: t\n---\nbody") = chars "---" :: tl ∧
      dateStep (getFrontmatter (chars "---\ntitle: t\n---\nbody")) (chars "2024-06-01")
          (chars "---\ntitle: t\n---\nbody") =
        chars "---\n" ++ (chars "date: " ++ chars "2024-06-01") ++ '\n' ::
          (chars "---\ntitle: t\n---\nbody").drop 4 ∧
      splitNl (dateStep (getFrontmatter (chars "---\ntitle: t\n---\nbody"))
          (chars "2024-06-01") (chars "---\ntitle: t\n---\nbody")) =
        chars "---" :: (chars "date: " ++ chars "2024-06-01") :: tl ∧
      ∃ fm', getFrontmatter (dateStep (getFrontmatter (chars "---\ntitle: t\n---\nbody"))
          (chars "2024-06-01") (chars "---\ntitle: t\n---\nbody")) = some fm' ∧
        lookupKey fm' (chars "date") = some (FmVal.str (chars "2024-06-01")) :=
  date_inject_frame_amended (chars "2024-06-01") (chars "---\ntitle: t\n---\nbody")
    [(chars "title", FmVal.str (chars "t"))]
    (by decide) (by decide) (by decide) (by decide)

end NotesSite
